import Mathlib

/-!
Verification of the hierarchical discovery and flattening core of the vault
read adapter (src/vault/client.go).  The remote store is modelled by two
oracle functions: a list-children primitive (`ListResult`) used by `walkTree`
(client.go:232-268) and a read-value primitive (`ReadResult`) used by the
read loop of `GetValues` (client.go:197-229).  Values returned by the remote
read (Go `map[string]interface{}` decoded from JSON) are modelled by `JVal`,
where an object is encoded as a chain of `fcons` fields ending in `fnil`;
`other` stands for the JSON leaf kinds (numbers, booleans, lists, null) that
`flatten` ignores.  Go byte-level string operations are modelled on the
character list `String.data`; this is faithful because `'/'` never occurs as
a continuation byte of a multi-byte UTF-8 character.
-/

/-- JSON-ish value as decoded into Go `map[string]interface{}` /
`interface{}`.  An object is the field chain `fcons k₁ v₁ (fcons k₂ v₂ …
fnil)`; `other` covers the leaf kinds that client.go:284-295 silently
skips. -/
inductive JVal where
  | str (s : String)
  | fnil
  | fcons (k : String) (v : JVal) (rest : JVal)
  | other
  deriving DecidableEq, Repr

/-- Number of top-level fields of an (encoded) object, Go `len(data)`. -/
def fieldsLength : JVal → Nat
  | .fcons _ _ rest => fieldsLength rest + 1
  | _ => 0

/-- Field lookup in an (encoded) object, Go `data[key]` (first match; Go map
keys are unique). -/
def fieldsLookup : JVal → String → Option JVal
  | .fcons k v rest, key => if k = key then some v else fieldsLookup rest key
  | _, _ => none

/-- Go map read `vars[k]` on the association-list model of
`map[string]string`. -/
def getKV : List (String × String) → String → Option String
  | [], _ => none
  | (k', v') :: rest, k => if k' = k then some v' else getKV rest k

/-- Go map write `vars[k] = v`: replace in place if present, else append. -/
def setKV : List (String × String) → String → String → List (String × String)
  | [], k, v => [(k, v)]
  | (k', v') :: rest, k, v => if k' = k then (k, v) :: rest else (k', v') :: setKV rest k v

/-- Go `delete(vars, k)`. -/
def delKV : List (String × String) → String → List (String × String)
  | [], _ => []
  | (k', v') :: rest, k => if k' = k then delKV rest k else (k', v') :: delKV rest k

/-- Split a character list at `'/'` (byte-level `strings.Split`-style
worker); `acc` holds the current segment reversed. -/
def splitSlashAux : List Char → List Char → List (List Char)
  | [], acc => [acc.reverse]
  | c :: rest, acc => if c = '/' then acc.reverse :: splitSlashAux rest [] else splitSlashAux rest (c :: acc)

/-- Rejoin segments with a single `'/'` between them. -/
def joinSegs : List (List Char) → List Char
  | [] => []
  | [s] => s
  | s :: rest => s ++ '/' :: joinSegs rest

/-- Core loop of Go `path.Clean`: process segments left to right against a
stack (kept reversed).  Empty and `"."` segments are dropped; `".."` pops a
previous segment, stays as `".."` on a relative path with nothing to pop,
and is dropped at the root of a rooted path. -/
def cleanLoop (rooted : Bool) : List (List Char) → List (List Char) → List (List Char)
  | [], stack => stack
  | seg :: rest, stack =>
    if seg = [] ∨ seg = ['.'] then cleanLoop rooted rest stack
    else if seg = ['.', '.'] then
      match stack with
      | [] => if rooted then cleanLoop rooted rest [] else cleanLoop rooted rest [['.', '.']]
      | top :: tl =>
        if top = ['.', '.'] then cleanLoop rooted rest (['.', '.'] :: top :: tl)
        else cleanLoop rooted rest tl
    else cleanLoop rooted rest (seg :: stack)

/-- Segment-wise cleaning of a character list: split at `'/'`, run the
`path.Clean` stack loop, and rejoin. -/
def cleanSegs (rooted : Bool) (l : List Char) : List Char :=
  joinSegs ((cleanLoop rooted (splitSlashAux l []) []).reverse)

/-- Go `path.Clean`. -/
def pathClean (p : String) : String :=
  if p = "" then "."
  else if p.data.head? = some '/' then String.mk ('/' :: cleanSegs true p.data)
  else if cleanSegs false p.data = [] then "." else String.mk (cleanSegs false p.data)

/-- Go `path.Join(key, "/", c)` as used at client.go:263 and client.go:291:
skip leading empty elements, join the rest with `"/"`, then `path.Clean`. -/
def pathJoin (key c : String) : String :=
  if key = "" then pathClean ("//" ++ c) else pathClean (key ++ "///" ++ c)

/-- Scalar-secret heuristic, client.go:272-281: a structured value with
exactly one field, named `value`, holding a string. -/
def isKV (data : JVal) : Option String :=
  if fieldsLength data = 1 then
    match fieldsLookup data "value" with
    | some (.str s) => some s
    | _ => none
  else none

/-- Recursive flattening, client.go:284-295: a string is assigned to the
accumulated key; an object recurses into each field with the field name
path-joined onto the key; every other value kind is silently skipped. -/
def flatten (key : String) : JVal → List (String × String) → List (String × String)
  | .str s, vars => setKV vars key s
  | .fnil, vars => vars
  | .fcons k v rest, vars => flatten key rest (flatten (pathJoin key k) v vars)
  | .other, vars => vars

/-- Stand-in for `json.Marshal(resp.Data)` at client.go:222.  `GetValues`
stores the marshalled text at the base key and deletes that entry at
client.go:225 before anything can read it, so its exact text is provably
irrelevant to the returned mapping (see the `processPath` characterization
lemmas below); a fixed marker keeps the model executable. -/
def jsonEncode (_ : JVal) : String := "<marshalled>"

/-- Response of the remote read-value primitive
(`c.client.Logical().Read(key)`, client.go:206): an error, a nil
response/nil data, or data. -/
inductive ReadResult where
  | err (e : String)
  | noData
  | data (d : JVal)
  deriving DecidableEq, Repr

/-- Whether a read response is an error. -/
def isErr : ReadResult → Bool
  | .err _ => true
  | _ => false

/-- Body of the read loop of `GetValues` for one discovered path with data
(client.go:215-226): scalar secrets are stored at the path itself, anything
else is stored marshalled at the path, flattened, and the marshalled entry
deleted. -/
def processPath (key : String) (d : JVal) (vars : List (String × String)) :
    List (String × String) :=
  match isKV d with
  | some val => setKV vars key val
  | none => delKV (flatten key d (setKV vars key (jsonEncode d))) key

/-- Read loop of `GetValues` (client.go:204-227) over the discovered paths
in a given enumeration order (Go iterates the `branches` map in an
unspecified order): first read error aborts the whole loop, nil data is
skipped, data is processed by `processPath`. -/
def readLoop (R : String → ReadResult) : List String → List (String × String) →
    Except String (List (String × String))
  | [], vars => .ok vars
  | key :: rest, vars =>
    match R key with
    | .err e => .error e
    | .noData => readLoop R rest vars
    | .data d => readLoop R rest (processPath key d vars)

/-- Sequence of paths at which the read loop actually invokes the remote
read primitive: it stops right after the first failing read. -/
def readCalls (R : String → ReadResult) : List String → List String
  | [] => []
  | key :: rest =>
    match R key with
    | .err _ => [key]
    | _ => key :: readCalls R rest

/-- One entry of the `keys` list of a list-children response
(`resp.Data["keys"].([]interface{})`): a string child name or a value of
any other type, which client.go:261-265 silently skips. -/
inductive LVal where
  | str (s : String)
  | other
  deriving DecidableEq, Repr

/-- Response of the remote list-children primitive
(`c.Logical().List(key)`, client.go:244): an error; a nil response, nil
data or missing `keys` field (client.go:248); a `keys` field that is not a
`[]interface{}` (client.go:252-257); or a `keys` list. -/
inductive ListResult where
  | err (e : String)
  | noData
  | notList
  | keys (ks : List LVal)
  deriving DecidableEq, Repr

/-- String-typed child names of a list-children response. -/
def childStrings : ListResult → List String
  | .keys ks => ks.filterMap (fun x => match x with | .str c => some c | _ => none)
  | _ => []

/-- Go map-membership test `branches[key]` on the list model of the visited
set. -/
def memB (x : String) : List String → Bool
  | [] => false
  | y :: rest => if y = x then true else memB x rest

/-- Path normalization at client.go:233-236: strip a single trailing `'/'`
unless it is the only character. -/
def stripSlash (key : String) : String :=
  if 1 < key.data.length ∧ key.data.getLast? = some '/' then String.mk key.data.dropLast else key

mutual
/-- `walkTree` (client.go:232-268), with a fuel parameter standing for the
unbounded Go call stack (`none` = fuel exhausted, an artifact of the
embedding).  Returns the updated visited set, the returned `error` value,
and the trace of paths passed to the remote list primitive.  Note the
result of the recursive call at client.go:264 is discarded: only a failure
of this invocation's own list call is ever returned. -/
def walkTree (L : String → ListResult) (fuel : Nat) (key : String) (branches : List String) :
    Option (List String × Option String × List String) :=
  match fuel with
  | 0 => none
  | fuel' + 1 =>
    let key' := stripSlash key
    if memB key' branches then some (branches, none, [])
    else
      let branches' := branches ++ [key']
      match L key' with
      | ListResult.err e => some (branches', some e, [key'])
      | ListResult.noData => some (branches', none, [key'])
      | ListResult.notList => some (branches', none, [key'])
      | ListResult.keys ks =>
        match walkChildren L fuel' key' ks branches' with
        | none => none
        | some (b, calls) => some (b, none, key' :: calls)
termination_by (fuel, 0)

/-- Loop over the `keys` list at client.go:260-266: string entries are
path-joined onto the current key and recursed into (the recursive return
value, including any error, is dropped); non-string entries are skipped. -/
def walkChildren (L : String → ListResult) (fuel : Nat) (key : String) (ks : List LVal)
    (branches : List String) : Option (List String × List String) :=
  match ks with
  | [] => some (branches, [])
  | LVal.str c :: rest =>
    match walkTree L fuel (pathJoin key c) branches with
    | none => none
    | some (b, _, calls1) =>
      match walkChildren L fuel key rest b with
      | none => none
      | some (b2, calls2) => some (b2, calls1 ++ calls2)
  | LVal.other :: rest => walkChildren L fuel key rest branches
termination_by (fuel, ks.length + 1)
end

/-- Discovery phase of `GetValues` (client.go:200-202): run `walkTree` for
each supplied prefix into one shared visited set, ignoring the returned
error.  Also accumulates the overall list-call trace. -/
def walkAll (L : String → ListResult) (fuel : Nat) : List String → List String →
    Option (List String × List String)
  | [], branches => some (branches, [])
  | k :: rest, branches =>
    match walkTree L fuel k branches with
    | none => none
    | some (b, _err, calls1) =>
      match walkAll L fuel rest b with
      | none => none
      | some (b2, calls2) => some (b2, calls1 ++ calls2)

/-- `GetValues` (client.go:197-229): discovery over all prefixes, then the
read loop over the discovered paths (in the discovery enumeration order
here; Go iterates the set in an unspecified order). -/
def GetValues (L : String → ListResult) (R : String → ReadResult) (fuel : Nat)
    (keys : List String) : Option (Except String (List (String × String))) :=
  match walkAll L fuel keys [] with
  | none => none
  | some (branches, _) => some (readLoop R branches [])

/-- Keys of an association list. -/
def keysOf (l : List (String × String)) : List String := l.map Prod.fst

/-- The string leaves of a value together with the output key each one is
flattened to (specification-side companion of `flatten`, derived from the
wording of the spec: one entry per string leaf, keyed by path-joining the
nested field names onto the base key). -/
def leaves (key : String) : JVal → List (String × String)
  | .str s => [(key, s)]
  | .fnil => []
  | .fcons k v rest => leaves (pathJoin key k) v ++ leaves key rest
  | .other => []

/-- Left-biased choice on optional strings. -/
def orO : Option String → Option String → Option String
  | some v, _ => some v
  | none, b => b

/-- Write a list of key/value pairs left to right with Go map semantics. -/
def writeAll : List (String × String) → List (String × String) → List (String × String)
  | vs, [] => vs
  | vs, (k, v) :: rest => writeAll (setKV vs k v) rest

/-- Last-match lookup: the value the final write at key `k` leaves behind. -/
def lastKV (l : List (String × String)) (k : String) : Option String := getKV l.reverse k

/-- Effect of one read-loop iteration on the variables map (no-op for an
error, which in context aborts the loop instead). -/
def apply1 (R : String → ReadResult) (p : String) (vars : List (String × String)) :
    List (String × String) :=
  match R p with
  | .err _ => vars
  | .noData => vars
  | .data d => processPath p d vars

/-- Read-loop iterations accumulated over a path enumeration. -/
def applyAll (R : String → ReadResult) : List String → List (String × String) →
    List (String × String)
  | [], vars => vars
  | p :: rest, vars => applyAll R rest (apply1 R p vars)

/-- Output keys a discovered path can touch in the read loop: the path
itself for a scalar secret or the marshalled blob, plus the flattened leaf
keys for a structured secret. -/
def touched (R : String → ReadResult) (p : String) : List String :=
  match R p with
  | .err _ => []
  | .noData => []
  | .data d =>
    match isKV d with
    | some _ => [p]
    | none => p :: keysOf (leaves p d)

/-- Pointwise transformer describing what one read-loop iteration at path
`p` does to the value stored at output key `k`. -/
def fTrans (R : String → ReadResult) (p k : String) (o : Option String) : Option String :=
  match R p with
  | .err _ => o
  | .noData => o
  | .data d =>
    match isKV d with
    | some v => if k = p then some v else o
    | none => if k = p then none else orO (lastKV (leaves p d) k) o

/-- A path segment that `path.Clean` passes through unchanged: nonempty and
neither `"."` nor `".."`. -/
def plainSeg (seg : List Char) : Bool :=
  decide (seg ≠ [] ∧ seg ≠ ['.'] ∧ seg ≠ ['.', '.'])

lemma getKV_setKV (vs : List (String × String)) (k v k' : String) :
    getKV (setKV vs k v) k' = if k = k' then some v else getKV vs k' := by
  induction vs with
  | nil => simp only [setKV, getKV]
  | cons hd tl ih =>
    obtain ⟨k0, v0⟩ := hd
    by_cases h0 : k0 = k
    · subst h0
      simp only [setKV, if_pos rfl, getKV]
      by_cases hk : k0 = k'
      · simp [hk]
      · simp [hk, getKV]
    · simp only [setKV, if_neg h0, getKV]
      by_cases hk : k0 = k'
      · have : ¬ k = k' := fun h => h0 (h ▸ hk)
        simp [hk, this]
      · simp [hk, ih]

lemma getKV_delKV (vs : List (String × String)) (k k' : String) :
    getKV (delKV vs k) k' = if k = k' then none else getKV vs k' := by
  induction vs with
  | nil => simp [delKV, getKV]
  | cons hd tl ih =>
    obtain ⟨k0, v0⟩ := hd
    by_cases h0 : k0 = k
    · subst h0
      have hdel : delKV ((k0, v0) :: tl) k0 = delKV tl k0 := by simp [delKV]
      rw [hdel, ih]
      by_cases hk : k0 = k'
      · simp [hk]
      · simp [hk, getKV]
    · simp only [delKV, if_neg h0, getKV]
      rw [ih]
      by_cases hk : k0 = k'
      · have : ¬ k = k' := fun h => h0 (h ▸ hk)
        simp [hk, this]
      · simp [hk]

lemma delKV_setKV (vs : List (String × String)) (k v : String) :
    delKV (setKV vs k v) k = delKV vs k := by
  induction vs with
  | nil => simp [setKV, delKV]
  | cons hd tl ih =>
    obtain ⟨k0, v0⟩ := hd
    by_cases h0 : k0 = k
    · subst h0; simp [setKV, delKV]
    · simp [setKV, delKV, h0, ih]

lemma orO_none_right (a : Option String) : orO a none = a := by
  cases a <;> rfl

lemma orO_assoc (a b c : Option String) : orO (orO a b) c = orO a (orO b c) := by
  cases a <;> rfl

lemma getKV_append (l1 l2 : List (String × String)) (k : String) :
    getKV (l1 ++ l2) k = orO (getKV l1 k) (getKV l2 k) := by
  induction l1 with
  | nil => simp [getKV, orO]
  | cons hd tl ih =>
    obtain ⟨k0, v0⟩ := hd
    by_cases hk : k0 = k
    · simp [getKV, hk, orO]
    · simp [getKV, hk, ih]

lemma lastKV_cons (k0 v0 : String) (rest : List (String × String)) (k : String) :
    lastKV ((k0, v0) :: rest) k = orO (lastKV rest k) (if k0 = k then some v0 else none) := by
  simp only [lastKV, List.reverse_cons, getKV_append]
  by_cases hk : k0 = k <;> simp [getKV, hk]

lemma writeAll_append (vs : List (String × String)) (l1 l2 : List (String × String)) :
    writeAll vs (l1 ++ l2) = writeAll (writeAll vs l1) l2 := by
  induction l1 generalizing vs with
  | nil => simp [writeAll]
  | cons hd tl ih =>
    obtain ⟨k, v⟩ := hd
    simp [writeAll, ih]

lemma getKV_writeAll (vs : List (String × String)) (l : List (String × String)) (k : String) :
    getKV (writeAll vs l) k = orO (lastKV l k) (getKV vs k) := by
  induction l generalizing vs with
  | nil => simp [writeAll, lastKV, getKV, orO]
  | cons hd tl ih =>
    obtain ⟨k0, v0⟩ := hd
    rw [writeAll, ih, lastKV_cons, orO_assoc]
    by_cases hk : k0 = k
    · simp [getKV_setKV, hk, orO]
    · simp [getKV_setKV, hk, orO]

lemma getKV_eq_none_iff (l : List (String × String)) (k : String) :
    getKV l k = none ↔ k ∉ keysOf l := by
  induction l with
  | nil => simp [getKV, keysOf]
  | cons hd tl ih =>
    obtain ⟨k0, v0⟩ := hd
    by_cases hk : k0 = k
    · subst hk
      simp [getKV, keysOf]
    · have hk' : ¬ k = k0 := fun h => hk h.symm
      simp only [getKV, if_neg hk, ih, keysOf, List.map_cons, List.mem_cons]
      exact ⟨fun h hor => hor.elim (fun h1 => hk' h1) h, fun h hm => h (Or.inr hm)⟩

lemma keysOf_reverse (l : List (String × String)) : keysOf l.reverse = (keysOf l).reverse := by
  simp [keysOf]

lemma lastKV_of_nodup (l : List (String × String)) (k : String) (h : (keysOf l).Nodup) :
    lastKV l k = getKV l k := by
  induction l with
  | nil => rfl
  | cons hd tl ih =>
    obtain ⟨k0, v0⟩ := hd
    have h' := h
    rw [keysOf, List.map_cons, List.nodup_cons] at h'
    obtain ⟨hk0m, hndm⟩ := h'
    have hnd : (keysOf tl).Nodup := by simpa [keysOf] using hndm
    have hk0 : k0 ∉ keysOf tl := by simpa [keysOf] using hk0m
    rw [lastKV_cons, ih hnd]
    by_cases hk : k0 = k
    · subst hk
      have : getKV tl k0 = none := (getKV_eq_none_iff tl k0).mpr hk0
      simp [getKV, this, orO]
    · simp [getKV, hk, orO_none_right]

lemma flatten_eq_writeAll (v : JVal) (key : String) (vars : List (String × String)) :
    flatten key v vars = writeAll vars (leaves key v) := by
  induction v generalizing key vars with
  | str s => simp [flatten, leaves, writeAll]
  | fnil => simp [flatten, leaves, writeAll]
  | other => simp [flatten, leaves, writeAll]
  | fcons k v rest ihv ihrest =>
    simp [flatten, leaves, writeAll_append, ihv, ihrest]

lemma memB_iff (x : String) (l : List String) : memB x l = true ↔ x ∈ l := by
  induction l with
  | nil => simp [memB]
  | cons y rest ih =>
    by_cases hy : y = x
    · simp [memB, hy]
    · have hy' : ¬ x = y := fun h => hy h.symm
      simp [memB, hy, hy', ih]

lemma processPath_scalar (p : String) (d : JVal) (v : String) (vars : List (String × String))
    (k : String) (h : isKV d = some v) :
    getKV (processPath p d vars) k = if k = p then some v else getKV vars k := by
  simp only [processPath, h, getKV_setKV]
  by_cases hk : p = k
  · subst hk; simp
  · have hk' : ¬ k = p := fun hh => hk hh.symm
    simp [hk, hk']

lemma processPath_structured (p : String) (d : JVal) (vars : List (String × String))
    (k : String) (h : isKV d = none) :
    getKV (processPath p d vars) k =
      if k = p then none else orO (lastKV (leaves p d) k) (getKV vars k) := by
  simp only [processPath, h]
  rw [getKV_delKV]
  by_cases hk : p = k
  · subst hk; simp
  · have hk' : ¬ k = p := fun hh => hk hh.symm
    rw [flatten_eq_writeAll, getKV_writeAll, getKV_setKV]
    simp [hk, hk']

lemma getKV_apply1 (R : String → ReadResult) (p : String) (vars : List (String × String))
    (k : String) : getKV (apply1 R p vars) k = fTrans R p k (getKV vars k) := by
  cases hR : R p with
  | err e => simp [apply1, fTrans, hR]
  | noData => simp [apply1, fTrans, hR]
  | data d =>
    cases hKV : isKV d with
    | some v => simp [apply1, fTrans, hR, hKV, processPath_scalar p d v vars k hKV]
    | none => simp [apply1, fTrans, hR, hKV, processPath_structured p d vars k hKV]

lemma fTrans_id (R : String → ReadResult) (p k : String) (o : Option String)
    (h : k ∉ touched R p) : fTrans R p k o = o := by
  cases hR : R p with
  | err e => simp [fTrans, hR]
  | noData => simp [fTrans, hR]
  | data d =>
    cases hKV : isKV d with
    | some v =>
      simp only [touched, hR, hKV, List.mem_singleton] at h
      simp [fTrans, hR, hKV, h]
    | none =>
      simp only [touched, hR, hKV, List.mem_cons, not_or] at h
      obtain ⟨hp, hleaf⟩ := h
      have hnone : lastKV (leaves p d) k = none := by
        rw [lastKV]
        refine (getKV_eq_none_iff _ _).mpr ?_
        simpa [keysOf] using hleaf
      simp [fTrans, hR, hKV, hp, hnone, orO]

lemma readLoop_ok (R : String → ReadResult) (l : List String)
    (h : ∀ p ∈ l, isErr (R p) = false) (vars : List (String × String)) :
    readLoop R l vars = .ok (applyAll R l vars) := by
  induction l generalizing vars with
  | nil => rfl
  | cons p rest ih =>
    have hrest : ∀ q ∈ rest, isErr (R q) = false := fun q hq => h q (List.mem_cons_of_mem p hq)
    cases hR : R p with
    | err e =>
      have := h p (List.mem_cons_self p rest)
      rw [hR] at this
      simp [isErr] at this
    | noData => simp [readLoop, hR, applyAll, apply1, ih hrest]
    | data d => simp [readLoop, hR, applyAll, apply1, ih hrest]

lemma applyAll_congr (R : String → ReadResult) (l : List String)
    (v1 v2 : List (String × String)) (h : ∀ k, getKV v1 k = getKV v2 k) :
    ∀ k, getKV (applyAll R l v1) k = getKV (applyAll R l v2) k := by
  induction l generalizing v1 v2 with
  | nil => exact h
  | cons p rest ih =>
    intro k
    simp only [applyAll]
    exact ih (apply1 R p v1) (apply1 R p v2)
      (fun k' => by rw [getKV_apply1, getKV_apply1, h k']) k

lemma apply1_comm (R : String → ReadResult) (p q : String) (vars : List (String × String))
    (hdisj : ∀ k ∈ touched R p, k ∉ touched R q) (k : String) :
    getKV (apply1 R p (apply1 R q vars)) k = getKV (apply1 R q (apply1 R p vars)) k := by
  rw [getKV_apply1, getKV_apply1, getKV_apply1, getKV_apply1]
  by_cases hp : k ∈ touched R p
  · simp only [fTrans_id R q k _ (hdisj k hp)]
  · simp only [fTrans_id R p k _ hp]

lemma applyAll_perm (R : String → ReadResult) {l1 l2 : List String} (hperm : l1.Perm l2) :
    l1.Pairwise (fun p q => ∀ k ∈ touched R p, k ∉ touched R q) →
    ∀ vars k, getKV (applyAll R l1 vars) k = getKV (applyAll R l2 vars) k := by
  induction hperm with
  | nil => intro _ vars k; rfl
  | cons x h ih =>
    intro hpair vars k
    simp only [applyAll]
    exact ih (List.Pairwise.of_cons hpair) (apply1 R x vars) k
  | swap x y l =>
    intro hpair vars k
    have hyx : ∀ k ∈ touched R y, k ∉ touched R x :=
      (List.pairwise_cons.mp hpair).1 x (List.mem_cons_self x l)
    have hxy : ∀ k ∈ touched R x, k ∉ touched R y := fun k hkx hky => hyx k hky hkx
    simp only [applyAll]
    exact applyAll_congr R l _ _ (fun k' => apply1_comm R x y vars hxy k') k
  | trans h12 h23 ih1 ih2 =>
    intro hpair vars k
    have hp2 := (List.Perm.pairwise_iff
      (fun hab k hka hkb => hab k hkb hka) h12).mp hpair
    exact (ih1 hpair vars k).trans (ih2 hp2 vars k)

lemma walkTree_zero (L : String → ListResult) (key : String) (branches : List String) :
    walkTree L 0 key branches = none := by
  rw [walkTree]

lemma walkTree_succ (L : String → ListResult) (fuel : Nat) (key : String)
    (branches : List String) :
    walkTree L (fuel + 1) key branches =
      if memB (stripSlash key) branches then some (branches, none, [])
      else
        match L (stripSlash key) with
        | ListResult.err e => some (branches ++ [stripSlash key], some e, [stripSlash key])
        | ListResult.noData => some (branches ++ [stripSlash key], none, [stripSlash key])
        | ListResult.notList => some (branches ++ [stripSlash key], none, [stripSlash key])
        | ListResult.keys ks =>
          match walkChildren L fuel (stripSlash key) ks (branches ++ [stripSlash key]) with
          | none => none
          | some (b, calls) => some (b, none, stripSlash key :: calls) := by
  rw [walkTree]

lemma walkChildren_nil (L : String → ListResult) (fuel : Nat) (key : String)
    (branches : List String) : walkChildren L fuel key [] branches = some (branches, []) := by
  rw [walkChildren]

lemma walkChildren_str (L : String → ListResult) (fuel : Nat) (key c : String) (rest : List LVal)
    (branches : List String) :
    walkChildren L fuel key (LVal.str c :: rest) branches =
      match walkTree L fuel (pathJoin key c) branches with
      | none => none
      | some (b, _, calls1) =>
        match walkChildren L fuel key rest b with
        | none => none
        | some (b2, calls2) => some (b2, calls1 ++ calls2) := by
  rw [walkChildren]

lemma walkChildren_other (L : String → ListResult) (fuel : Nat) (key : String) (rest : List LVal)
    (branches : List String) :
    walkChildren L fuel key (LVal.other :: rest) branches = walkChildren L fuel key rest branches := by
  rw [walkChildren]

lemma walkAll_nil (L : String → ListResult) (fuel : Nat) (branches : List String) :
    walkAll L fuel [] branches = some (branches, []) := rfl

lemma walkAll_cons (L : String → ListResult) (fuel : Nat) (k : String) (rest : List String)
    (branches : List String) :
    walkAll L fuel (k :: rest) branches =
      match walkTree L fuel k branches with
      | none => none
      | some (b, _err, calls1) =>
        match walkAll L fuel rest b with
        | none => none
        | some (b2, calls2) => some (b2, calls1 ++ calls2) := rfl

lemma walkChildren_inv (L : String → ListResult) (fuel : Nat)
    (hT : ∀ key branches b e calls, walkTree L fuel key branches = some (b, e, calls) →
      (∀ x ∈ branches, x ∈ b) ∧ calls.Nodup ∧ ∀ c ∈ calls, c ∈ b ∧ c ∉ branches) :
    ∀ ks key branches b calls, walkChildren L fuel key ks branches = some (b, calls) →
      (∀ x ∈ branches, x ∈ b) ∧ calls.Nodup ∧ ∀ c ∈ calls, c ∈ b ∧ c ∉ branches := by
  intro ks
  induction ks with
  | nil =>
    intro key branches b calls h
    rw [walkChildren_nil] at h
    simp only [Option.some.injEq, Prod.mk.injEq] at h
    obtain ⟨rfl, rfl⟩ := h
    exact ⟨fun x hx => hx, List.nodup_nil, by simp⟩
  | cons hd rest ih =>
    cases hd with
    | str c =>
      intro key branches b calls h
      rw [walkChildren_str] at h
      cases hw : walkTree L fuel (pathJoin key c) branches with
      | none => rw [hw] at h; simp at h
      | some t1 =>
        obtain ⟨b1, e1, calls1⟩ := t1
        rw [hw] at h
        dsimp only at h
        cases hw2 : walkChildren L fuel key rest b1 with
        | none => rw [hw2] at h; simp at h
        | some t2 =>
          obtain ⟨b2, calls2⟩ := t2
          rw [hw2] at h
          simp only [Option.some.injEq, Prod.mk.injEq] at h
          obtain ⟨rfl, rfl⟩ := h
          obtain ⟨mono1, nd1, props1⟩ := hT _ _ _ _ _ hw
          obtain ⟨mono2, nd2, props2⟩ := ih _ _ _ _ hw2
          refine ⟨fun x hx => mono2 x (mono1 x hx), ?_, ?_⟩
          · exact List.Nodup.append nd1 nd2
              (fun a ha1 ha2 => (props2 a ha2).2 ((props1 a ha1).1))
          · intro cc hcc
            rcases List.mem_append.mp hcc with h1 | h2
            · exact ⟨mono2 cc (props1 cc h1).1, (props1 cc h1).2⟩
            · exact ⟨(props2 cc h2).1, fun hcb => (props2 cc h2).2 (mono1 cc hcb)⟩
    | other =>
      intro key branches b calls h
      rw [walkChildren_other] at h
      exact ih _ _ _ _ h

lemma walkTree_inv (L : String → ListResult) :
    ∀ fuel key branches b e calls, walkTree L fuel key branches = some (b, e, calls) →
      (∀ x ∈ branches, x ∈ b) ∧ calls.Nodup ∧ ∀ c ∈ calls, c ∈ b ∧ c ∉ branches := by
  intro fuel
  induction fuel with
  | zero =>
    intro key branches b e calls h
    rw [walkTree_zero] at h
    simp at h
  | succ fuel ih =>
    intro key branches b e calls h
    rw [walkTree_succ] at h
    by_cases hmem : memB (stripSlash key) branches = true
    · rw [if_pos hmem] at h
      simp only [Option.some.injEq, Prod.mk.injEq] at h
      obtain ⟨rfl, rfl, rfl⟩ := h
      exact ⟨fun x hx => hx, List.nodup_nil, by simp⟩
    · rw [if_neg hmem] at h
      have hnb : stripSlash key ∉ branches := fun hh => hmem ((memB_iff _ _).mpr hh)
      have hself : stripSlash key ∈ branches ++ [stripSlash key] := by simp
      cases hL : L (stripSlash key) with
      | err e' =>
        rw [hL] at h
        simp only [Option.some.injEq, Prod.mk.injEq] at h
        obtain ⟨rfl, rfl, rfl⟩ := h
        refine ⟨fun x hx => List.mem_append_left _ hx, by simp, ?_⟩
        intro cc hcc
        rw [List.mem_singleton] at hcc
        subst hcc
        exact ⟨hself, hnb⟩
      | noData =>
        rw [hL] at h
        simp only [Option.some.injEq, Prod.mk.injEq] at h
        obtain ⟨rfl, rfl, rfl⟩ := h
        refine ⟨fun x hx => List.mem_append_left _ hx, by simp, ?_⟩
        intro cc hcc
        rw [List.mem_singleton] at hcc
        subst hcc
        exact ⟨hself, hnb⟩
      | notList =>
        rw [hL] at h
        simp only [Option.some.injEq, Prod.mk.injEq] at h
        obtain ⟨rfl, rfl, rfl⟩ := h
        refine ⟨fun x hx => List.mem_append_left _ hx, by simp, ?_⟩
        intro cc hcc
        rw [List.mem_singleton] at hcc
        subst hcc
        exact ⟨hself, hnb⟩
      | keys ks =>
        rw [hL] at h
        dsimp only at h
        cases hw : walkChildren L fuel (stripSlash key) ks (branches ++ [stripSlash key]) with
        | none => rw [hw] at h; simp at h
        | some t =>
          obtain ⟨b', calls'⟩ := t
          rw [hw] at h
          simp only [Option.some.injEq, Prod.mk.injEq] at h
          obtain ⟨rfl, rfl, rfl⟩ := h
          obtain ⟨mono, nd, props⟩ := walkChildren_inv L fuel ih ks _ _ _ _ hw
          refine ⟨fun x hx => mono x (List.mem_append_left _ hx), ?_, ?_⟩
          · rw [List.nodup_cons]
            exact ⟨fun hc => (props _ hc).2 hself, nd⟩
          · intro cc hcc
            rcases List.mem_cons.mp hcc with h1 | h2
            · subst h1
              exact ⟨mono _ hself, hnb⟩
            · exact ⟨(props cc h2).1, fun hcb => (props cc h2).2 (List.mem_append_left _ hcb)⟩

lemma walkAll_inv (L : String → ListResult) (fuel : Nat) :
    ∀ keys branches b calls, walkAll L fuel keys branches = some (b, calls) →
      (∀ x ∈ branches, x ∈ b) ∧ calls.Nodup ∧ ∀ c ∈ calls, c ∈ b ∧ c ∉ branches := by
  intro keys
  induction keys with
  | nil =>
    intro branches b calls h
    rw [walkAll_nil] at h
    simp only [Option.some.injEq, Prod.mk.injEq] at h
    obtain ⟨rfl, rfl⟩ := h
    exact ⟨fun x hx => hx, List.nodup_nil, by simp⟩
  | cons k rest ih =>
    intro branches b calls h
    rw [walkAll_cons] at h
    cases hw : walkTree L fuel k branches with
    | none => rw [hw] at h; simp at h
    | some t1 =>
      obtain ⟨b1, e1, calls1⟩ := t1
      rw [hw] at h
      dsimp only at h
      cases hw2 : walkAll L fuel rest b1 with
      | none => rw [hw2] at h; simp at h
      | some t2 =>
        obtain ⟨b2, calls2⟩ := t2
        rw [hw2] at h
        simp only [Option.some.injEq, Prod.mk.injEq] at h
        obtain ⟨rfl, rfl⟩ := h
        obtain ⟨mono1, nd1, props1⟩ := walkTree_inv L fuel _ _ _ _ _ hw
        obtain ⟨mono2, nd2, props2⟩ := ih _ _ _ hw2
        refine ⟨fun x hx => mono2 x (mono1 x hx), ?_, ?_⟩
        · exact List.Nodup.append nd1 nd2
            (fun a ha1 ha2 => (props2 a ha2).2 ((props1 a ha1).1))
        · intro cc hcc
          rcases List.mem_append.mp hcc with h1 | h2
          · exact ⟨mono2 cc (props1 cc h1).1, (props1 cc h1).2⟩
          · exact ⟨(props2 cc h2).1, fun hcb => (props2 cc h2).2 (mono1 cc hcb)⟩

lemma sdiff_card_mono (U : Finset String) (l1 l2 : List String)
    (h : ∀ x ∈ l1, x ∈ l2) : (U \ l2.toFinset).card ≤ (U \ l1.toFinset).card := by
  apply Finset.card_le_card
  intro x hx
  rw [Finset.mem_sdiff] at hx ⊢
  exact ⟨hx.1, fun hxl => hx.2 (List.mem_toFinset.mpr (h x (List.mem_toFinset.mp hxl)))⟩

lemma walkChildren_fuel (L : String → ListResult) (U : Finset String) (fuel : Nat)
    (hT : ∀ key branches, stripSlash key ∈ U →
      (U \ branches.toFinset).card + 1 ≤ fuel → (walkTree L fuel key branches).isSome) :
    ∀ ks key branches, (∀ c, LVal.str c ∈ ks → stripSlash (pathJoin key c) ∈ U) →
      (U \ branches.toFinset).card + 1 ≤ fuel → (walkChildren L fuel key ks branches).isSome := by
  intro ks
  induction ks with
  | nil =>
    intro key branches _ _
    rw [walkChildren_nil]
    simp
  | cons hd rest ih =>
    cases hd with
    | str c =>
      intro key branches hks hfuel
      have h1 := hT (pathJoin key c) branches (hks c (List.mem_cons_self _ _)) hfuel
      rw [walkChildren_str]
      cases hw : walkTree L fuel (pathJoin key c) branches with
      | none => rw [hw] at h1; simp at h1
      | some t1 =>
        obtain ⟨b1, e1, calls1⟩ := t1
        have hmono := (walkTree_inv L fuel _ _ _ _ _ hw).1
        have hcard : (U \ b1.toFinset).card + 1 ≤ fuel := by
          have := sdiff_card_mono U branches b1 hmono
          omega
        have h2 := ih key b1 (fun c' hc' => hks c' (List.mem_cons_of_mem _ hc')) hcard
        cases hw2 : walkChildren L fuel key rest b1 with
        | none => rw [hw2] at h2; simp at h2
        | some t2 =>
          obtain ⟨b2, calls2⟩ := t2
          dsimp only
          rw [hw2]
          simp
    | other =>
      intro key branches hks hfuel
      rw [walkChildren_other]
      exact ih key branches (fun c' hc' => hks c' (List.mem_cons_of_mem _ hc')) hfuel

lemma walkTree_fuel (L : String → ListResult) (U : Finset String)
    (hcl : ∀ k ∈ U, ∀ c ∈ childStrings (L k), stripSlash (pathJoin k c) ∈ U) :
    ∀ fuel key branches, stripSlash key ∈ U →
      (U \ branches.toFinset).card + 1 ≤ fuel → (walkTree L fuel key branches).isSome := by
  intro fuel
  induction fuel with
  | zero => intro key branches _ hf; omega
  | succ fuel ih =>
    intro key branches hU hf
    rw [walkTree_succ]
    by_cases hmem : memB (stripSlash key) branches = true
    · rw [if_pos hmem]; simp
    · rw [if_neg hmem]
      have hnotmem : stripSlash key ∉ branches := fun hh => hmem ((memB_iff _ _).mpr hh)
      cases hL : L (stripSlash key) with
      | err e => simp
      | noData => simp
      | notList => simp
      | keys ks =>
        have hks : ∀ c, LVal.str c ∈ ks → stripSlash (pathJoin (stripSlash key) c) ∈ U := by
          intro c hc
          apply hcl (stripSlash key) hU
          rw [hL]
          simp only [childStrings, List.mem_filterMap]
          exact ⟨LVal.str c, hc, rfl⟩
        have hsubw : U \ (branches ++ [stripSlash key]).toFinset ⊆ U \ branches.toFinset := by
          intro x hx
          rw [Finset.mem_sdiff] at hx ⊢
          refine ⟨hx.1, fun hxl => hx.2 ?_⟩
          rw [List.mem_toFinset] at hxl ⊢
          exact List.mem_append_left _ hxl
        have hmemw : stripSlash key ∈ U \ branches.toFinset := by
          rw [Finset.mem_sdiff, List.mem_toFinset]
          exact ⟨hU, hnotmem⟩
        have hnmemw : stripSlash key ∉ U \ (branches ++ [stripSlash key]).toFinset := by
          rw [Finset.mem_sdiff, List.mem_toFinset]
          intro hcontra
          exact hcontra.2 (by simp)
        have hss : U \ (branches ++ [stripSlash key]).toFinset ⊂ U \ branches.toFinset := by
          rw [Finset.ssubset_def]
          exact ⟨hsubw, fun hsup => hnmemw (hsup hmemw)⟩
        have hcard : (U \ (branches ++ [stripSlash key]).toFinset).card + 1 ≤ fuel := by
          have := Finset.card_lt_card hss
          omega
        have hsome := walkChildren_fuel L U fuel ih ks (stripSlash key)
          (branches ++ [stripSlash key]) hks hcard
        cases hw : walkChildren L fuel (stripSlash key) ks (branches ++ [stripSlash key]) with
        | none => rw [hw] at hsome; simp at hsome
        | some t =>
          obtain ⟨b', calls'⟩ := t
          dsimp only
          rw [hw]
          simp

lemma walkAll_fuel (L : String → ListResult) (U : Finset String)
    (hcl : ∀ k ∈ U, ∀ c ∈ childStrings (L k), stripSlash (pathJoin k c) ∈ U) (fuel : Nat) :
    ∀ keys branches, (∀ k ∈ keys, stripSlash k ∈ U) →
      (U \ branches.toFinset).card + 1 ≤ fuel → (walkAll L fuel keys branches).isSome := by
  intro keys
  induction keys with
  | nil => intro branches _ _; rw [walkAll_nil]; simp
  | cons k rest ih =>
    intro branches hks hf
    have h1 := walkTree_fuel L U hcl fuel k branches (hks k (List.mem_cons_self _ _)) hf
    rw [walkAll_cons]
    cases hw : walkTree L fuel k branches with
    | none => rw [hw] at h1; simp at h1
    | some t1 =>
      obtain ⟨b1, e1, calls1⟩ := t1
      have hmono := (walkTree_inv L fuel _ _ _ _ _ hw).1
      have hcard : (U \ b1.toFinset).card + 1 ≤ fuel := by
        have := sdiff_card_mono U branches b1 hmono
        omega
      have h2 := ih b1 (fun k' hk' => hks k' (List.mem_cons_of_mem _ hk')) hcard
      cases hw2 : walkAll L fuel rest b1 with
      | none => rw [hw2] at h2; simp at h2
      | some t2 =>
        obtain ⟨b2, calls2⟩ := t2
        dsimp only
        rw [hw2]
        simp

lemma splitSlashAux_slash (ys : List Char) :
    ∀ xs acc, splitSlashAux (xs ++ '/' :: ys) acc = splitSlashAux xs acc ++ splitSlashAux ys [] := by
  intro xs
  induction xs with
  | nil => intro acc; simp [splitSlashAux]
  | cons x xs ih =>
    intro acc
    by_cases hx : x = '/'
    · simp [splitSlashAux, hx, ih]
    · simp [splitSlashAux, hx, ih]

lemma splitSlashAux_ne_nil (l : List Char) : ∀ acc, splitSlashAux l acc ≠ [] := by
  induction l with
  | nil => intro acc; simp [splitSlashAux]
  | cons c rest ih =>
    intro acc
    by_cases hc : c = '/'
    · simp [splitSlashAux, hc]
    · simp [splitSlashAux, hc, ih]

lemma joinSegs_cons_ne (s : List Char) (rest : List (List Char)) (h : rest ≠ []) :
    joinSegs (s :: rest) = s ++ '/' :: joinSegs rest := by
  cases rest with
  | nil => exact absurd rfl h
  | cons r0 rrest => rfl

lemma joinSegs_splitSlashAux (l : List Char) :
    ∀ acc, joinSegs (splitSlashAux l acc) = acc.reverse ++ l := by
  induction l with
  | nil => intro acc; simp [splitSlashAux, joinSegs]
  | cons c rest ih =>
    intro acc
    by_cases hc : c = '/'
    · subst hc
      have hsp : splitSlashAux ('/' :: rest) acc = acc.reverse :: splitSlashAux rest [] := by
        simp [splitSlashAux]
      rw [hsp, joinSegs_cons_ne _ _ (splitSlashAux_ne_nil rest []), ih]
      simp
    · rw [splitSlashAux]
      simp only [if_neg hc]
      rw [ih]
      simp

lemma cleanLoop_empty_cons (r : Bool) (rest : List (List Char)) (st : List (List Char)) :
    cleanLoop r ([] :: rest) st = cleanLoop r rest st := by
  simp [cleanLoop]

lemma cleanLoop_append (r : Bool) (s2 : List (List Char)) :
    ∀ s1 st, cleanLoop r (s1 ++ s2) st = cleanLoop r s2 (cleanLoop r s1 st) := by
  intro s1
  induction s1 with
  | nil => intro st; rfl
  | cons seg s1 ih =>
    intro st
    by_cases h1 : seg = [] ∨ seg = ['.']
    · simp [cleanLoop, h1, ih]
    · by_cases h2 : seg = ['.', '.']
      · cases st with
        | nil => cases r <;> simp [cleanLoop, h1, h2, ih]
        | cons top tl =>
          by_cases h3 : top = ['.', '.'] <;> simp [cleanLoop, h1, h2, h3, ih]
      · simp [cleanLoop, h1, h2, ih]

lemma cleanLoop_plain (r : Bool) :
    ∀ segs st, (∀ seg ∈ segs, plainSeg seg = true) →
      cleanLoop r segs st = segs.reverse ++ st := by
  intro segs
  induction segs with
  | nil => intro st _; rfl
  | cons seg rest ih =>
    intro st hplain
    have hp := hplain seg (List.mem_cons_self _ _)
    rw [plainSeg, decide_eq_true_iff] at hp
    obtain ⟨hn, hd, hdd⟩ := hp
    have h1 : ¬(seg = [] ∨ seg = ['.']) := by
      intro hc
      rcases hc with hc | hc
      · exact hn hc
      · exact hd hc
    simp only [cleanLoop, if_neg h1, if_neg hdd]
    rw [ih (seg :: st) (fun s hs => hplain s (List.mem_cons_of_mem _ hs))]
    simp

lemma joinSegs_append (b : List (List Char)) (hb : b ≠ []) :
    ∀ a, a ≠ [] → joinSegs (a ++ b) = joinSegs a ++ '/' :: joinSegs b := by
  intro a
  induction a with
  | nil => intro h; exact absurd rfl h
  | cons x arest ih =>
    intro _
    cases arest with
    | nil =>
      rw [List.singleton_append, joinSegs_cons_ne _ _ hb]
      rfl
    | cons a0 atl =>
      rw [List.cons_append, joinSegs_cons_ne _ _ (by simp),
        joinSegs_cons_ne _ _ (by simp), ih (by simp)]
      simp

lemma mk_data (s : String) : String.mk s.data = s := by
  cases s
  rfl

lemma data_ne_nil (p : String) (h : p ≠ "") : p.data ≠ [] := by
  intro hd
  apply h
  rw [← mk_data p, hd]

lemma head?_append_left (l1 l2 : List Char) (h : l1 ≠ []) : (l1 ++ l2).head? = l1.head? := by
  cases l1 with
  | nil => exact absurd rfl h
  | cons c t => rfl

lemma stripSlash_eq_self (p : String) (h : p.data.getLast? ≠ some '/') : stripSlash p = p := by
  rw [stripSlash, if_neg]
  intro hc
  exact h hc.2

lemma stripSlash_append_slash (p : String) (hp : p ≠ "") : stripSlash (p ++ "/") = p := by
  have hne := data_ne_nil p hp
  have hd : (p ++ "/").data = p.data ++ ['/'] := by simp [String.data_append]
  have hcond : 1 < (p ++ "/").data.length ∧ (p ++ "/").data.getLast? = some '/' := by
    rw [hd]
    constructor
    · have : 0 < p.data.length := List.length_pos.mpr hne
      simp only [List.length_append, List.length_singleton]
      omega
    · exact List.getLast?_concat _
  rw [stripSlash, if_pos hcond, hd, List.dropLast_concat, mk_data]

lemma pathClean_congr (x y : String) (hx : x ≠ "") (hy : y ≠ "")
    (hhead : x.data.head? = y.data.head?)
    (hsegs : ∀ r : Bool,
      cleanLoop r (splitSlashAux x.data []) [] = cleanLoop r (splitSlashAux y.data []) []) :
    pathClean x = pathClean y := by
  rw [pathClean, pathClean, if_neg hx, if_neg hy]
  simp only [cleanSegs, hsegs true, hsegs false, hhead]

lemma pathClean_triple (p c : String) (hp : p ≠ "") :
    pathClean (p ++ "///" ++ c) = pathClean (p ++ "/" ++ c) := by
  have hpd := data_ne_nil p hp
  have hd1 : (p ++ "///" ++ c).data = p.data ++ '/' :: ('/' :: '/' :: c.data) := by
    simp [String.data_append]
  have hd2 : (p ++ "/" ++ c).data = p.data ++ '/' :: c.data := by
    simp [String.data_append]
  have hne1 : (p ++ "///" ++ c) ≠ "" := by
    intro h
    have hdd : (p ++ "///" ++ c).data = [] := by rw [h]
    rw [hd1] at hdd
    simp at hdd
  have hne2 : (p ++ "/" ++ c) ≠ "" := by
    intro h
    have hdd : (p ++ "/" ++ c).data = [] := by rw [h]
    rw [hd2] at hdd
    simp at hdd
  apply pathClean_congr _ _ hne1 hne2
  · rw [hd1, hd2, head?_append_left _ _ hpd, head?_append_left _ _ hpd]
  · intro r
    have e1 : splitSlashAux (p.data ++ '/' :: ('/' :: '/' :: c.data)) [] =
        splitSlashAux p.data [] ++ [] :: [] :: splitSlashAux c.data [] := by
      rw [splitSlashAux_slash]
      congr 1
    have e2 : splitSlashAux (p.data ++ '/' :: c.data) [] =
        splitSlashAux p.data [] ++ splitSlashAux c.data [] := by
      rw [splitSlashAux_slash]
    rw [hd1, hd2, e1, e2, cleanLoop_append, cleanLoop_append]
    simp only [cleanLoop_empty_cons]

lemma pathClean_trailing (p : String) (hp : p ≠ "") : pathClean (p ++ "///") = pathClean p := by
  have hpd := data_ne_nil p hp
  have hd1 : (p ++ "///").data = p.data ++ '/' :: ('/' :: '/' :: []) := by
    simp [String.data_append]
  have hne1 : (p ++ "///") ≠ "" := by
    intro h
    have hdd : (p ++ "///").data = [] := by rw [h]
    rw [hd1] at hdd
    simp at hdd
  apply pathClean_congr _ _ hne1 hp
  · rw [hd1, head?_append_left _ _ hpd]
  · intro r
    have e1 : splitSlashAux (p.data ++ '/' :: ('/' :: '/' :: [])) [] =
        splitSlashAux p.data [] ++ [[], [], []] := by
      rw [splitSlashAux_slash]
      congr 1
    rw [hd1, e1, cleanLoop_append]
    simp only [cleanLoop_empty_cons]
    rfl

lemma string_append_empty (p : String) : p ++ "" = p := by
  rw [← mk_data (p ++ ""), ← mk_data p]
  simp [String.data_append]

lemma pathJoin_empty (p : String) (hp : p ≠ "") : pathJoin p "" = pathClean p := by
  rw [pathJoin, if_neg hp, string_append_empty, pathClean_trailing p hp]

lemma pathJoin_eq_clean (p c : String) : pathJoin p c = pathClean (p ++ "/" ++ c) := by
  by_cases hp : p = ""
  · subst hp
    rw [pathJoin, if_pos rfl]
    have hd1 : (("//" : String) ++ c).data = '/' :: '/' :: c.data := by
      simp [String.data_append]
    have hd2 : (("" : String) ++ "/" ++ c).data = '/' :: c.data := by
      simp [String.data_append]
    have hne1 : ("//" : String) ++ c ≠ "" := by
      intro h
      have hdd : (("//" : String) ++ c).data = [] := by rw [h]
      rw [hd1] at hdd
      simp at hdd
    have hne2 : ("" : String) ++ "/" ++ c ≠ "" := by
      intro h
      have hdd : (("" : String) ++ "/" ++ c).data = [] := by rw [h]
      rw [hd2] at hdd
      simp at hdd
    apply pathClean_congr _ _ hne1 hne2
    · rw [hd1, hd2]
      rfl
    · intro r
      rw [hd1, hd2]
      have h2 : splitSlashAux ('/' :: '/' :: c.data) [] = [] :: [] :: splitSlashAux c.data [] := by
        simp [splitSlashAux]
      have h1 : splitSlashAux ('/' :: c.data) [] = [] :: splitSlashAux c.data [] := by
        simp [splitSlashAux]
      rw [h2, h1]
      simp only [cleanLoop_empty_cons]
  · rw [pathJoin, if_neg hp]
    exact pathClean_triple p c hp

lemma pathJoin_plain (p c : String)
    (hP : ∀ seg ∈ splitSlashAux p.data [], plainSeg seg = true)
    (hC : ∀ seg ∈ splitSlashAux c.data [], plainSeg seg = true) :
    pathJoin p c = p ++ "/" ++ c := by
  have hp : p ≠ "" := by
    intro h
    have hmem : ([] : List Char) ∈ splitSlashAux p.data [] := by
      rw [h]
      simp [splitSlashAux]
    have := hP [] hmem
    simp [plainSeg] at this
  have hc : c ≠ "" := by
    intro h
    have hmem : ([] : List Char) ∈ splitSlashAux c.data [] := by
      rw [h]
      simp [splitSlashAux]
    have := hC [] hmem
    simp [plainSeg] at this
  have hpd := data_ne_nil p hp
  have hcd := data_ne_nil c hc
  have hhead : ¬ p.data.head? = some '/' := by
    intro hh
    cases hq : p.data with
    | nil => exact hpd hq
    | cons c0 t =>
      rw [hq] at hh
      simp only [List.head?_cons, Option.some.injEq] at hh
      subst hh
      have hmem : ([] : List Char) ∈ splitSlashAux p.data [] := by
        rw [hq]
        simp [splitSlashAux]
      have := hP [] hmem
      simp [plainSeg] at this
  have hd1 : (p ++ "///" ++ c).data = p.data ++ '/' :: ('/' :: '/' :: c.data) := by
    simp [String.data_append]
  have hd2 : (p ++ "/" ++ c).data = p.data ++ '/' :: c.data := by
    simp [String.data_append]
  have hne1 : (p ++ "///" ++ c) ≠ "" := by
    intro h
    have hdd : (p ++ "///" ++ c).data = [] := by rw [h]
    rw [hd1] at hdd
    simp at hdd
  have hh1 : (p ++ "///" ++ c).data.head? = p.data.head? := by
    rw [hd1]
    exact head?_append_left _ _ hpd
  have e1 : splitSlashAux (p.data ++ '/' :: ('/' :: '/' :: c.data)) [] =
      splitSlashAux p.data [] ++ [] :: [] :: splitSlashAux c.data [] := by
    rw [splitSlashAux_slash]
    congr 1
  have hbody : cleanSegs false (p ++ "///" ++ c).data = p.data ++ '/' :: c.data := by
    rw [cleanSegs, hd1, e1, cleanLoop_append]
    simp only [cleanLoop_empty_cons]
    rw [cleanLoop_plain false _ _ hP, cleanLoop_plain false _ _ hC]
    simp only [List.append_nil, List.reverse_append, List.reverse_reverse]
    rw [joinSegs_append _ (splitSlashAux_ne_nil c.data []) _ (splitSlashAux_ne_nil p.data []),
      joinSegs_splitSlashAux, joinSegs_splitSlashAux]
    simp
  rw [pathJoin, if_neg hp]
  simp only [pathClean]
  rw [if_neg hne1, if_neg (by rw [hh1]; exact hhead), hbody, if_neg (by simp), ← hd2, mk_data]

/-- C1: a read whose data has exactly one field, named `value`, holding the
string `s`, contributes exactly the entry `p ↦ s` to the fetch output (the
loop continues on `setKV vars p s`, so no other entry for `p` is produced);
a data value with more than one field, or whose single field is not named
`value` or is not a string, falls through to structured flattening (the
marshal / flatten / delete branch of client.go:219-226). -/
theorem claim1_scalar_secret :
    (∀ (R : String → ReadResult) (p : String) (d : JVal) (s : String) (rest : List String)
      (vars : List (String × String)), R p = ReadResult.data d → fieldsLength d = 1 →
      fieldsLookup d "value" = some (JVal.str s) →
      readLoop R (p :: rest) vars = readLoop R rest (setKV vars p s)) ∧
    (∀ (R : String → ReadResult) (p : String) (d : JVal) (rest : List String)
      (vars : List (String × String)), R p = ReadResult.data d →
      (1 < fieldsLength d ∨
        (fieldsLength d = 1 ∧ ∀ s, fieldsLookup d "value" ≠ some (JVal.str s))) →
      readLoop R (p :: rest) vars =
        readLoop R rest (delKV (flatten p d (setKV vars p (jsonEncode d))) p)) := by
  constructor
  · intro R p d s rest vars hR hlen hval
    have hkv : isKV d = some s := by rw [isKV, if_pos hlen, hval]
    simp [readLoop, hR, processPath, hkv]
  · intro R p d rest vars hR hcond
    have hkv : isKV d = none := by
      rcases hcond with h1 | ⟨h1, h2⟩
      · rw [isKV, if_neg (by omega)]
      · rw [isKV, if_pos h1]
        cases hl : fieldsLookup d "value" with
        | none => rfl
        | some v =>
          cases v with
          | str s => exact absurd hl (h2 s)
          | fnil => rfl
          | fcons k v rest' => rfl
          | other => rfl
    simp [readLoop, hR, processPath, hkv]

/-- Read model for the `claim1_scalar_secret` witness. -/
def c1R : String → ReadResult := fun p =>
  if p = "a" then ReadResult.data (JVal.fcons "value" (JVal.str "hello") JVal.fnil)
  else if p = "b" then
    ReadResult.data (JVal.fcons "value" (JVal.str "x") (JVal.fcons "other" (JVal.str "y") JVal.fnil))
  else ReadResult.noData

/-- Witness for `claim1_scalar_secret` at concrete inputs. -/
theorem claim1_scalar_secret_witness :
    readLoop c1R ["a"] [] = readLoop c1R [] (setKV [] "a" "hello") ∧
    readLoop c1R ["b"] [] = readLoop c1R []
      (delKV (flatten "b" (JVal.fcons "value" (JVal.str "x")
        (JVal.fcons "other" (JVal.str "y") JVal.fnil))
        (setKV [] "b" (jsonEncode (JVal.fcons "value" (JVal.str "x")
          (JVal.fcons "other" (JVal.str "y") JVal.fnil))))) "b") :=
  ⟨claim1_scalar_secret.1 c1R "a" (JVal.fcons "value" (JVal.str "hello") JVal.fnil) "hello" [] []
      (by decide) (by decide) (by decide),
    claim1_scalar_secret.2 c1R "b"
      (JVal.fcons "value" (JVal.str "x") (JVal.fcons "other" (JVal.str "y") JVal.fnil)) [] []
      (by decide) (Or.inl (by decide))⟩

/-- C2 counterexample: the structured value with the single string leaf at
the empty field name flattens onto the base path itself and is then erased
by the delete at client.go:225, so its leaf produces no output entry at
all, contradicting "one output entry per string leaf". -/
theorem claim2_counterexample :
    isKV (JVal.fcons "" (JVal.str "s") JVal.fnil) = none ∧
    leaves "a" (JVal.fcons "" (JVal.str "s") JVal.fnil) = [("a", "s")] ∧
    processPath "a" (JVal.fcons "" (JVal.str "s") JVal.fnil) [] = [] := by
  refine ⟨by decide, by decide, by decide⟩

/-- C2 (amended): for a structured value, provided the joined leaf keys are
pairwise distinct and none of them equals the base path `p` itself, the
contribution of path `p` is exactly one entry per string leaf, keyed by
path-joining the nested field names onto `p`; and unconditionally no entry
remains at `p` itself after the flatten-then-delete step.  (A leaf whose
joined key equals `p` — e.g. an empty field name — is erased by the delete,
and colliding leaf keys keep only the last written value.) -/
theorem claim2_structured_flattening :
    ∀ (p : String) (d : JVal), isKV d = none →
      ((keysOf (leaves p d)).Nodup → p ∉ keysOf (leaves p d) →
        ∀ k, getKV (processPath p d []) k = getKV (leaves p d) k) ∧
      (∀ vars, getKV (processPath p d vars) p = none) := by
  intro p d hkv
  constructor
  · intro hnd hp k
    rw [processPath_structured p d [] k hkv]
    by_cases hkp : k = p
    · subst hkp
      rw [if_pos rfl]
      symm
      exact (getKV_eq_none_iff _ _).mpr hp
    · rw [if_neg hkp, lastKV_of_nodup _ _ hnd]
      simp [getKV, orO_none_right]
  · intro vars
    rw [processPath_structured p d vars p hkv, if_pos rfl]

/-- Witness for `claim2_structured_flattening` at the spec's own example. -/
theorem claim2_structured_flattening_witness :
    (isKV (JVal.fcons "db" (JVal.fcons "user" (JVal.str "a")
        (JVal.fcons "pass" (JVal.str "b") JVal.fnil)) JVal.fnil) = none ∧
      (keysOf (leaves "secret/app" (JVal.fcons "db" (JVal.fcons "user" (JVal.str "a")
        (JVal.fcons "pass" (JVal.str "b") JVal.fnil)) JVal.fnil))).Nodup ∧
      "secret/app" ∉ keysOf (leaves "secret/app" (JVal.fcons "db" (JVal.fcons "user" (JVal.str "a")
        (JVal.fcons "pass" (JVal.str "b") JVal.fnil)) JVal.fnil))) ∧
    getKV (processPath "secret/app" (JVal.fcons "db" (JVal.fcons "user" (JVal.str "a")
      (JVal.fcons "pass" (JVal.str "b") JVal.fnil)) JVal.fnil) []) "secret/app/db/user" =
      getKV (leaves "secret/app" (JVal.fcons "db" (JVal.fcons "user" (JVal.str "a")
        (JVal.fcons "pass" (JVal.str "b") JVal.fnil)) JVal.fnil)) "secret/app/db/user" :=
  ⟨⟨by decide, by decide, by decide⟩,
    (claim2_structured_flattening "secret/app" _ (by decide)).1 (by decide) (by decide)
      "secret/app/db/user"⟩

/-- C3: if every read before some path `p` succeeds and the read at `p`
fails with error `e`, the whole read loop returns exactly that error — no
partial mapping — and the remote read primitive is invoked on the paths up
to and including `p` only (client.go:206-210). -/
theorem claim3_first_error_aborts :
    ∀ (R : String → ReadResult) (l1 : List String) (p : String) (l2 : List String) (e : String)
      (vars : List (String × String)),
      (∀ q ∈ l1, isErr (R q) = false) → R p = ReadResult.err e →
      readLoop R (l1 ++ p :: l2) vars = Except.error e ∧
      readCalls R (l1 ++ p :: l2) = l1 ++ [p] := by
  intro R l1
  induction l1 with
  | nil =>
    intro p l2 e vars _ hp
    constructor
    · simp [readLoop, hp]
    · simp [readCalls, hp]
  | cons q l1' ih =>
    intro p l2 e vars hok hp
    have hq := hok q (List.mem_cons_self _ _)
    have hok' : ∀ r ∈ l1', isErr (R r) = false := fun r hr => hok r (List.mem_cons_of_mem _ hr)
    cases hRq : R q with
    | err e' => rw [hRq] at hq; simp [isErr] at hq
    | noData =>
      constructor
      · simp [readLoop, hRq, (ih p l2 e vars hok' hp).1]
      · simp [readCalls, hRq, (ih p l2 e vars hok' hp).2]
    | data d =>
      constructor
      · simp [readLoop, hRq, (ih p l2 e (processPath q d vars) hok' hp).1]
      · simp [readCalls, hRq, (ih p l2 e vars hok' hp).2]

/-- Read model for the `claim3_first_error_aborts` witness. -/
def c3R : String → ReadResult := fun p =>
  if p = "b" then ReadResult.err "boom"
  else ReadResult.noData

/-- Witness for `claim3_first_error_aborts` at concrete inputs: only the
first two of four paths are read and the error is surfaced. -/
theorem claim3_first_error_aborts_witness :
    ((∀ q ∈ ["a"], isErr (c3R q) = false) ∧ c3R "b" = ReadResult.err "boom") ∧
    readLoop c3R (["a"] ++ "b" :: ["c", "d"]) [] = Except.error "boom" ∧
    readCalls c3R (["a"] ++ "b" :: ["c", "d"]) = ["a"] ++ ["b"] :=
  ⟨⟨by decide, by decide⟩,
    claim3_first_error_aborts c3R ["a"] "b" ["c", "d"] "boom" [] (by decide) (by decide)⟩

/-- List model for the `claim4` counterexample: listing `a` yields the
child `b`, and listing `a/b` fails. -/
def c4L : String → ListResult := fun k =>
  if k = "a" then ListResult.keys [LVal.str "b"]
  else if k = "a/b" then ListResult.err "boom"
  else ListResult.noData

/-- C4 counterexample: the list call at the child path `a/b` fails (and is
invoked, per the returned call trace), yet `walkTree` on `a` returns no
error — the recursive call's result is discarded at client.go:264, so
failures arising while recursing into child paths are not propagated. -/
theorem claim4_counterexample :
    c4L "a/b" = ListResult.err "boom" ∧
    walkTree c4L 3 "a" [] = some (["a", "a/b"], none, ["a", "a/b"]) := by
  constructor
  · decide
  · have h1 : stripSlash "a" = "a" := by decide
    have h2 : pathJoin "a" "b" = "a/b" := by decide
    have h3 : stripSlash "a/b" = "a/b" := by decide
    have hc1 : c4L "a" = ListResult.keys [LVal.str "b"] := by decide
    have hc2 : c4L "a/b" = ListResult.err "boom" := by decide
    rw [show (3 : Nat) = 2 + 1 from rfl, walkTree_succ, h1, hc1]
    have hmem1 : memB "a" [] = false := by decide
    rw [hmem1]
    simp only [Bool.false_eq_true, if_false, List.nil_append]
    rw [walkChildren_str, h2, show (2 : Nat) = 1 + 1 from rfl, walkTree_succ, h3, hc2]
    have hmem2 : memB "a/b" ["a"] = false := by decide
    rw [hmem2]
    simp only [Bool.false_eq_true, if_false]
    rw [walkChildren_nil]
    rfl

/-- C4 (amended): `walkTree` returns an error exactly when the list call at
its own normalized path fails (so a failure arising while recursing into a
child path is discarded, client.go:264), and the top-level fetch ignores
`walkTree`'s returned error entirely and proceeds to the read phase over
the accumulated branch set (client.go:200-202). -/
theorem claim4_walk_errors :
    (∀ (L : String → ListResult) (fuel : Nat) (key : String) (branches : List String)
      (e : String), memB (stripSlash key) branches = false →
      L (stripSlash key) = ListResult.err e →
      walkTree L (fuel + 1) key branches =
        some (branches ++ [stripSlash key], some e, [stripSlash key])) ∧
    (∀ (L : String → ListResult) (fuel : Nat) (key : String) (branches b : List String)
      (e : String) (calls : List String),
      walkTree L fuel key branches = some (b, some e, calls) →
      L (stripSlash key) = ListResult.err e ∧ calls = [stripSlash key]) ∧
    (∀ (L : String → ListResult) (R : String → ReadResult) (fuel : Nat) (keys : List String)
      (b calls : List String), walkAll L fuel keys [] = some (b, calls) →
      GetValues L R fuel keys = some (readLoop R b [])) := by
  refine ⟨?_, ?_, ?_⟩
  · intro L fuel key branches e hmem hL
    rw [walkTree_succ, if_neg (by simp [hmem]), hL]
  · intro L fuel key branches b e calls h
    cases fuel with
    | zero => rw [walkTree_zero] at h; simp at h
    | succ fuel =>
      rw [walkTree_succ] at h
      by_cases hmem : memB (stripSlash key) branches = true
      · rw [if_pos hmem] at h
        simp only [Option.some.injEq, Prod.mk.injEq] at h
        exact absurd h.2.1 (by simp)
      · rw [if_neg hmem] at h
        cases hL : L (stripSlash key) with
        | err e' =>
          rw [hL] at h
          simp only [Option.some.injEq, Prod.mk.injEq] at h
          obtain ⟨-, he, hc⟩ := h
          have he' : e' = e := by
            have hee := he
            simp at hee
            exact hee
          subst he'
          exact ⟨rfl, hc.symm⟩
        | noData =>
          rw [hL] at h
          simp only [Option.some.injEq, Prod.mk.injEq] at h
          exact absurd h.2.1 (by simp)
        | notList =>
          rw [hL] at h
          simp only [Option.some.injEq, Prod.mk.injEq] at h
          exact absurd h.2.1 (by simp)
        | keys ks =>
          rw [hL] at h
          dsimp only at h
          cases hw : walkChildren L fuel (stripSlash key) ks (branches ++ [stripSlash key]) with
          | none => rw [hw] at h; simp at h
          | some t =>
            obtain ⟨b', calls'⟩ := t
            rw [hw] at h
            simp only [Option.some.injEq, Prod.mk.injEq] at h
            exact absurd h.2.1 (by simp)
  · intro L R fuel keys b calls h
    rw [GetValues, h]

/-- Models for the `claim4_walk_errors` witness. -/
def c4wL : String → ListResult := fun _ => ListResult.err "boom"

/-- Read model for the `claim4_walk_errors` witness. -/
def c4wR : String → ReadResult := fun _ => ReadResult.noData

/-- Witness for `claim4_walk_errors` at concrete inputs. -/
theorem claim4_walk_errors_witness :
    walkTree c4wL (0 + 1) "x" [] = some ([] ++ [stripSlash "x"], some "boom", [stripSlash "x"]) ∧
    (c4wL (stripSlash "x") = ListResult.err "boom" ∧
      [stripSlash "x"] = [stripSlash "x"]) ∧
    GetValues c4wL c4wR 1 [] = some (readLoop c4wR [] []) :=
  ⟨claim4_walk_errors.1 c4wL 0 "x" [] "boom" (by decide) (by decide),
    claim4_walk_errors.2.1 c4wL (0 + 1) "x" [] ([] ++ [stripSlash "x"]) "boom" [stripSlash "x"]
      (claim4_walk_errors.1 c4wL 0 "x" [] "boom" (by decide) (by decide)),
    claim4_walk_errors.2.2 c4wL c4wR 1 [] [] [] rfl⟩

/-- C5: over a whole discovery run (any prefixes, any starting visited
set), the list-children primitive is invoked at most once per path — the
call trace has no duplicates — every listed path ends up in the visited
set, and no path already visited at the start is ever listed again.  This
is the extensional rendering of "every normalized path is added to the
visited set before list-children is invoked on it" (client.go:238-244). -/
theorem claim5_list_once :
    ∀ (L : String → ListResult) (fuel : Nat) (keys branches0 b calls : List String),
      walkAll L fuel keys branches0 = some (b, calls) →
      calls.Nodup ∧ ∀ c ∈ calls, c ∈ b ∧ c ∉ branches0 := by
  intro L fuel keys branches0 b calls h
  obtain ⟨-, hnd, hprops⟩ := walkAll_inv L fuel keys branches0 b calls h
  exact ⟨hnd, hprops⟩

/-- List model for the `claim5_list_once` witness. -/
def c5L : String → ListResult := fun _ => ListResult.noData

lemma c5L_eval : walkAll c5L 1 ["a"] [] = some (["a"], ["a"]) := by
  have hss : stripSlash "a" = "a" := by decide
  rw [walkAll_cons, show (1 : Nat) = 0 + 1 from rfl, walkTree_succ, hss]
  have hmem : memB "a" [] = false := by decide
  rw [hmem]
  simp only [Bool.false_eq_true, if_false, List.nil_append]
  rfl

/-- Witness for `claim5_list_once` at a concrete model. -/
theorem claim5_list_once_witness :
    walkAll c5L 1 ["a"] [] = some (["a"], ["a"]) ∧
    (["a"] : List String).Nodup ∧ ∀ c ∈ (["a"] : List String), c ∈ ["a"] ∧ c ∉ ([] : List String) :=
  ⟨c5L_eval, claim5_list_once c5L 1 ["a"] [] ["a"] ["a"] c5L_eval⟩

/-- C6: on a finite remote tree model — a finite path universe `U` closed
under joining listed string children onto the listed path — discovery over
any prefixes inside `U` terminates once the fuel (the embedding's stand-in
for the unbounded Go call stack) is at least `U.card + 1`, even when the
child listings form cycles; and a revisit of an already-visited path
returns immediately with no error and no further list calls
(client.go:238-241). -/
theorem claim6_termination :
    (∀ (L : String → ListResult) (U : Finset String),
      (∀ k ∈ U, ∀ c ∈ childStrings (L k), stripSlash (pathJoin k c) ∈ U) →
      ∀ (keys : List String) (fuel : Nat), (∀ k ∈ keys, stripSlash k ∈ U) →
        U.card + 1 ≤ fuel → (walkAll L fuel keys []).isSome) ∧
    (∀ (L : String → ListResult) (fuel : Nat) (key : String) (branches : List String),
      stripSlash key ∈ branches → walkTree L (fuel + 1) key branches = some (branches, none, [])) := by
  constructor
  · intro L U hcl keys fuel hkeys hfuel
    apply walkAll_fuel L U hcl fuel keys [] hkeys
    have hemp : (U \ ([] : List String).toFinset).card = U.card := by simp
    omega
  · intro L fuel key branches hmem
    rw [walkTree_succ, if_pos ((memB_iff _ _).mpr hmem)]

/-- List model for the `claim6_termination` witness: `a` lists the child
`b` and `a/b` lists the child `..`, whose join `path.Join("a/b", "/", "..")
= "a"` cycles back to the already-visited path `a`. -/
def c6L : String → ListResult := fun k =>
  if k = "a" then ListResult.keys [LVal.str "b"]
  else if k = "a/b" then ListResult.keys [LVal.str ".."]
  else ListResult.noData

/-- Witness for `claim6_termination` on a cyclic two-node model. -/
theorem claim6_termination_witness :
    ((∀ k ∈ ({"a", "a/b"} : Finset String), ∀ c ∈ childStrings (c6L k),
        stripSlash (pathJoin k c) ∈ ({"a", "a/b"} : Finset String)) ∧
      (∀ k ∈ (["a"] : List String), stripSlash k ∈ ({"a", "a/b"} : Finset String)) ∧
      ({"a", "a/b"} : Finset String).card + 1 ≤ 3 ∧
      stripSlash "a" ∈ (["a"] : List String)) ∧
    (walkAll c6L 3 ["a"] []).isSome ∧
    walkTree c6L (0 + 1) "a" ["a"] = some (["a"], none, []) :=
  ⟨⟨by decide, by decide, by decide, by decide⟩,
    claim6_termination.1 c6L {"a", "a/b"} (by decide) ["a"] 3 (by decide) (by decide),
    claim6_termination.2 c6L 0 "a" ["a"] (by decide)⟩

/-- C7: normalization strips exactly one trailing `'/'` before the
visited-set check, so discovery of a prefix with one trailing slash added
behaves identically to discovery of the prefix itself (for any nonempty
prefix not already ending in `'/'`), and the single-character prefix `"/"`
is left unchanged rather than reduced to the empty string
(client.go:233-236). -/
theorem claim7_normalization :
    (∀ (L : String → ListResult) (fuel : Nat) (p : String) (branches : List String),
      p ≠ "" → p.data.getLast? ≠ some '/' →
      walkTree L fuel (p ++ "/") branches = walkTree L fuel p branches) ∧
    stripSlash "/" = "/" := by
  constructor
  · intro L fuel p branches hp hlast
    cases fuel with
    | zero => rw [walkTree_zero, walkTree_zero]
    | succ fuel =>
      rw [walkTree_succ, walkTree_succ, stripSlash_append_slash p hp, stripSlash_eq_self p hlast]
  · decide

/-- List model for the `claim7_normalization` witness. -/
def c7L : String → ListResult := fun _ => ListResult.noData

/-- Witness for `claim7_normalization` at the spec's example prefix. -/
theorem claim7_normalization_witness :
    (("secret/foo" : String) ≠ "" ∧ ("secret/foo" : String).data.getLast? ≠ some '/') ∧
    walkTree c7L 1 ("secret/foo" ++ "/") [] = walkTree c7L 1 "secret/foo" [] :=
  ⟨⟨by decide, by decide⟩,
    claim7_normalization.1 c7L 1 "secret/foo" [] (by decide) (by decide)⟩

/-- List model for the `claim8` counterexample: listing `a` yields the
child name `..`. -/
def c8L : String → ListResult := fun k =>
  if k = "a" then ListResult.keys [LVal.str ".."] else ListResult.noData

/-- C8 counterexample: for the child name `..`, `path.Join` does not merely
insert one separator and collapse redundant ones — it resolves the `..`
segment, so the walker recurses into `"."` rather than `"a/.."`; the
visited set after walking `a` contains `"."`. -/
theorem claim8_counterexample :
    pathJoin "a" ".." = "." ∧
    pathJoin "a" ".." ≠ "a" ++ "/" ++ ".." ∧
    walkTree c8L 3 "a" [] = some (["a", "."], none, ["a", "."]) := by
  refine ⟨by decide, by decide, ?_⟩
  have h1 : stripSlash "a" = "a" := by decide
  have h2 : pathJoin "a" ".." = "." := by decide
  have h3 : stripSlash "." = "." := by decide
  have hc1 : c8L "a" = ListResult.keys [LVal.str ".."] := by decide
  rw [show (3 : Nat) = 2 + 1 from rfl, walkTree_succ, h1, hc1]
  have hmem1 : memB "a" [] = false := by decide
  rw [hmem1]
  simp only [Bool.false_eq_true, if_false, List.nil_append]
  rw [walkChildren_str, h2, show (2 : Nat) = 1 + 1 from rfl, walkTree_succ, h3]
  have hmem2 : memB "." ["a"] = false := by decide
  rw [hmem2]
  simp only [Bool.false_eq_true, if_false]
  rw [show c8L "." = ListResult.noData from rfl]
  dsimp only
  rw [walkChildren_nil]
  rfl

/-- C8 (amended): the path the walker recurses into for a string child `c`
of the current path `p` is `path.Join(p, "/", c)`, which equals POSIX
`path.Clean` of `p ++ "/" ++ c` — this collapses redundant separators but
also resolves `.` and `..` segments, so segments are not always left
unchanged; when every segment of `p` and of `c` is plain (nonempty, not
`.`, not `..`), the joined path is exactly `p ++ "/" ++ c`; non-string
child entries are skipped silently without error (client.go:259-266). -/
theorem claim8_join_semantics :
    (∀ p c : String, pathJoin p c = pathClean (p ++ "/" ++ c)) ∧
    (∀ p c : String, (∀ seg ∈ splitSlashAux p.data [], plainSeg seg = true) →
      (∀ seg ∈ splitSlashAux c.data [], plainSeg seg = true) →
      pathJoin p c = p ++ "/" ++ c) ∧
    (∀ (L : String → ListResult) (fuel : Nat) (key : String) (rest : List LVal)
      (branches : List String),
      walkChildren L fuel key (LVal.other :: rest) branches =
        walkChildren L fuel key rest branches) :=
  ⟨pathJoin_eq_clean, pathJoin_plain, walkChildren_other⟩

/-- Witness for `claim8_join_semantics` at concrete inputs. -/
theorem claim8_join_semantics_witness :
    ((∀ seg ∈ splitSlashAux ("secret/app" : String).data [], plainSeg seg = true) ∧
      (∀ seg ∈ splitSlashAux ("db" : String).data [], plainSeg seg = true)) ∧
    pathJoin "secret/app" "db" = "secret/app" ++ "/" ++ "db" :=
  ⟨⟨by decide, by decide⟩,
    claim8_join_semantics.2.1 "secret/app" "db" (by decide) (by decide)⟩

/-- List model for the `claim9` counterexample. -/
def c9L : String → ListResult := fun _ => ListResult.noData

/-- Read model for the `claim9` counterexample: the non-clean discovered
path `a/` holds a structured value with an empty field name. -/
def c9R : String → ReadResult := fun p =>
  if p = "a/" then ReadResult.data (JVal.fcons "" (JVal.str "s") JVal.fnil)
  else ReadResult.noData

lemma c9_walk_eval : walkAll c9L 2 ["a//"] [] = some (["a/"], ["a/"]) := by
  have hss : stripSlash "a//" = "a/" := by decide
  rw [walkAll_cons, show (2 : Nat) = 1 + 1 from rfl, walkTree_succ, hss]
  have hmem : memB "a/" [] = false := by decide
  rw [hmem]
  simp only [Bool.false_eq_true, if_false, List.nil_append]
  rfl

/-- C9 counterexample: for the discoverable non-clean path `a/` (reached
from the user prefix `a//`, which normalization strips only once), joining
the empty field name onto it yields `a`, not `a/` itself, so the empty
field's string is not erased by the delete at `a/` — the fetch output
carries it under the key `a`. -/
theorem claim9_counterexample :
    pathJoin "a/" "" = "a" ∧
    GetValues c9L c9R 2 ["a//"] = some (Except.ok [("a", "s")]) := by
  constructor
  · decide
  · rw [GetValues, c9_walk_eval]
    rfl

/-- C9 (amended): for every clean base path `p` (`pathClean p = p`, which
holds for every path produced by child joining, though not for every
stripped user prefix), joining the empty field name onto `p` yields `p`
itself, and processing a structured value whose single field has the empty
name and a string content leaves exactly the prior variables minus any
entry at `p` — the string is absent from the contribution
(client.go:288-294 writes it at `p`, client.go:225 deletes it). -/
theorem claim9_empty_field :
    ∀ p : String, pathClean p = p →
      pathJoin p "" = p ∧
      ∀ (s : String) (vars : List (String × String)),
        processPath p (JVal.fcons "" (JVal.str s) JVal.fnil) vars = delKV vars p := by
  intro p hclean
  have hp : p ≠ "" := by
    intro h
    rw [h] at hclean
    exact absurd hclean (by decide)
  have hje : pathJoin p "" = p := by rw [pathJoin_empty p hp, hclean]
  refine ⟨hje, ?_⟩
  intro s vars
  have hkv : isKV (JVal.fcons "" (JVal.str s) JVal.fnil) = none := by
    simp [isKV, fieldsLength, fieldsLookup]
  simp only [processPath, hkv, flatten, hje]
  rw [delKV_setKV, delKV_setKV]

/-- Witness for `claim9_empty_field` at a concrete clean path. -/
theorem claim9_empty_field_witness :
    pathClean "secret/app" = "secret/app" ∧
    (pathJoin "secret/app" "" = "secret/app" ∧
      processPath "secret/app" (JVal.fcons "" (JVal.str "s") JVal.fnil) [("x", "y")] =
        delKV [("x", "y")] "secret/app") :=
  ⟨by decide,
    ⟨(claim9_empty_field "secret/app" (by decide)).1,
      (claim9_empty_field "secret/app" (by decide)).2 "s" [("x", "y")]⟩⟩

/-- Read model for the `claim10` counterexample: the structured value at
`a` flattens to the key `a/b`, which is also the scalar key of the
discovered path `a/b`. -/
def c10R : String → ReadResult := fun p =>
  if p = "a" then ReadResult.data (JVal.fcons "b" (JVal.str "x") JVal.fnil)
  else if p = "a/b" then ReadResult.data (JVal.fcons "value" (JVal.str "y") JVal.fnil)
  else ReadResult.noData

/-- C10 counterexample: the same error-free remote model read in two
enumeration orders of the same discovered path set yields two different
mappings — the flattened key `a/b` of path `a` collides with the scalar
key of path `a/b`, and last write wins. -/
theorem claim10_counterexample :
    List.Perm ["a", "a/b"] ["a/b", "a"] ∧
    readLoop c10R ["a", "a/b"] [] = Except.ok [("a/b", "y")] ∧
    readLoop c10R ["a/b", "a"] [] = Except.ok [("a/b", "x")] :=
  ⟨List.Perm.swap "a/b" "a" [], rfl, rfl⟩

/-- C10 (amended): for an error-free model in which distinct discovered
paths touch pairwise disjoint sets of output keys (no key receives
contributions from two different paths), the read loop succeeds and the
resulting mapping is the same — as a key-to-value function — for any two
enumeration orders of the discovered path set. -/
theorem claim10_order_independence :
    ∀ (R : String → ReadResult) (l1 l2 : List String) (vars : List (String × String)),
      l1.Perm l2 → (∀ p ∈ l1, isErr (R p) = false) →
      l1.Pairwise (fun p q => ∀ k ∈ touched R p, k ∉ touched R q) →
      readLoop R l1 vars = Except.ok (applyAll R l1 vars) ∧
      readLoop R l2 vars = Except.ok (applyAll R l2 vars) ∧
      ∀ k, getKV (applyAll R l1 vars) k = getKV (applyAll R l2 vars) k := by
  intro R l1 l2 vars hperm hok hpair
  exact ⟨readLoop_ok R l1 hok vars,
    readLoop_ok R l2 (fun p hp => hok p (hperm.mem_iff.mpr hp)) vars,
    applyAll_perm R hperm hpair vars⟩

/-- Read model for the `claim10_order_independence` witness: path `a` is a
scalar secret touching only the key `a`, path `b` is a structured secret
touching only the keys `b` and `b/c`. -/
def c10w : String → ReadResult := fun p =>
  if p = "a" then ReadResult.data (JVal.fcons "value" (JVal.str "x") JVal.fnil)
  else if p = "b" then ReadResult.data (JVal.fcons "c" (JVal.str "y") JVal.fnil)
  else ReadResult.noData

/-- Witness for `claim10_order_independence` at a concrete disjoint
model. -/
theorem claim10_order_independence_witness :
    (List.Perm ["a", "b"] ["b", "a"] ∧
      (∀ p ∈ (["a", "b"] : List String), isErr (c10w p) = false) ∧
      (["a", "b"] : List String).Pairwise (fun p q => ∀ k ∈ touched c10w p, k ∉ touched c10w q)) ∧
    (readLoop c10w ["a", "b"] [] = Except.ok (applyAll c10w ["a", "b"] []) ∧
      readLoop c10w ["b", "a"] [] = Except.ok (applyAll c10w ["b", "a"] []) ∧
      ∀ k, getKV (applyAll c10w ["a", "b"] []) k = getKV (applyAll c10w ["b", "a"] []) k) :=
  ⟨⟨List.Perm.swap "b" "a" [], by decide, by decide⟩,
    claim10_order_independence c10w ["a", "b"] ["b", "a"] [] (List.Perm.swap "b" "a" [])
      (by decide) (by decide)⟩
